import Mathlib

/-!
# Verification of the TEO impact-mapping pipeline

Shallow embedding of the core of the TEO change-impact analysis tool
(`src/analyzers/git-analyzer.js`, `src/mappers/feature-mapper.js`,
`src/integrations/playwright-integration.js`, `src/core/engine.js`)
and proofs about the claims of its specification.

External collaborators (the file system glob library, the `minimatch`
glob matcher, the JS regex engine, git content retrieval and the
tree-sitter parser) are modelled as oracle functions gathered in an
`Env` structure; everything else is translated directly from the
JavaScript source.  JS numbers are modelled as `ℚ` (plus an explicit
`JSNum` type with a NaN value where the code can divide by zero), JS
string-keyed objects and `Map`s as association lists preserving
insertion order, and JS `Set`-based deduplication as first-occurrence
deduplication.
-/

namespace TEO

/-! ## JS-semantics utilities -/

/-- First-occurrence deduplication, the meaning of `[...new Set(l)]` in JS.
`seen` is the accumulator of already-kept elements. -/
def jsDedupAux (seen : List String) : List String → List String
  | [] => []
  | a :: l => if a ∈ seen then jsDedupAux seen l else a :: jsDedupAux (a :: seen) l

/-- `[...new Set(l)]`: keep the first occurrence of each element, in order. -/
def jsDedup (l : List String) : List String := jsDedupAux [] l

/-- Association-list lookup by key (first match), used for JS objects/`Map`s. -/
def alookup {β : Type} (k : String) : List (String × β) → Option β
  | [] => none
  | p :: ps => if p.1 = k then some p.2 else alookup k ps

/-- JS object spread `{...a, ...b}` on objects with unique keys: the keys of `a`
in order (values overridden by `b` on collision) followed by the keys of `b`
not present in `a`, in order. -/
def jsMerge {β : Type} (a b : List (String × β)) : List (String × β) :=
  (a.map (fun p => (p.1, (alookup p.1 b).getD p.2))) ++
    (b.filter (fun p => (alookup p.1 a).isNone))

/-- JS `v || d` for an optional numeric field: `undefined`, `null` and `0` are
falsy and yield the default. -/
def jsNumOr (v : Option ℚ) (d : ℚ) : ℚ :=
  match v with
  | none => d
  | some q => if q = 0 then d else q

/-- JS `Math.round`: round half-up (towards `+∞`). -/
def jsRound (q : ℚ) : ℤ := ⌊q + 1 / 2⌋

/-- JS `String.prototype.includes` (substring test). -/
def strContains (hay needle : String) : Bool :=
  hay.data.tails.any (fun t => needle.data.isPrefixOf t)

/-- JS `s.replace(/[-_]/g, '')`. -/
def stripSeparators (s : String) : String :=
  ⟨s.data.filter (fun c => c ≠ '-' ∧ c ≠ '_')⟩

/-- JS `s.split(sep)` for a one-character separator, on the character list. -/
def splitChars (sep : Char) : List Char → List (List Char)
  | [] => [[]]
  | c :: cs =>
    if c = sep then [] :: splitChars sep cs
    else
      match splitChars sep cs with
      | [] => [[c]]
      | h :: t => (c :: h) :: t

/-- JS `s.split(sep)` for a one-character separator. -/
def splitOnChar (sep : Char) (s : String) : List String :=
  (splitChars sep s.data).map (fun l => ⟨l⟩)

/-- JS `s.toLowerCase()` (character-wise, as for the ASCII identifiers and
paths this code handles). -/
def lowerStr (s : String) : String :=
  ⟨s.data.map Char.toLower⟩

/-- JS `s.trim()`: strip leading and trailing whitespace. -/
def trimStr (s : String) : String :=
  ⟨((s.data.dropWhile Char.isWhitespace).reverse.dropWhile Char.isWhitespace).reverse⟩

/-- JS `s.endsWith(t)`. -/
def endsWithStr (s t : String) : Bool :=
  t.data.isSuffixOf s.data

/-- Drop the last `n` characters of a string. -/
def dropRightStr (s : String) (n : ℕ) : String :=
  ⟨s.data.take (s.data.length - n)⟩

/-- JS `l.join(sep)`. -/
def joinWith (sep : String) : List String → String
  | [] => ""
  | [x] => x
  | x :: xs => x ++ sep ++ joinWith sep xs

/-! ## Data model (`git-analyzer.js`, `feature-mapper.js`) -/

/-- `ChangeType` enum of `git-analyzer.js`. -/
inductive ChangeType where
  | added
  | modified
  | deleted
  | renamed
deriving DecidableEq, Repr

/-- A metadata value stored in a JS object (`string` or array of strings
are the shapes occurring in this code base). -/
inductive MetaVal where
  | str (s : String)
  | strs (l : List String)
deriving DecidableEq, Repr

/-- `CodeChange` of `git-analyzer.js` (fields used by the pipeline). -/
structure CodeChange where
  filePath : String
  changeType : ChangeType
  linesAdded : ℕ := 0
  linesRemoved : ℕ := 0
  functionsChanged : List String := []
  classesChanged : List String := []
  importsChanged : List String := []
deriving DecidableEq, Repr

/-- `DiffAnalysisResult` of `git-analyzer.js`, restricted to the field the
mapping pipeline reads (`changes`). -/
structure DiffResult where
  changes : List CodeChange
deriving DecidableEq, Repr

/-- `ImpactedFeature` of `feature-mapper.js`. -/
structure ImpactedFeature where
  featureName : String
  confidence : ℚ
  impactedFiles : List String := []
  testFiles : List String := []
  changeSummary : String := ""
  strategyUsed : String := ""
  metadata : List (String × MetaVal) := []
deriving DecidableEq, Repr

/-! ## Aggregation fold (`FeatureMapper.mapChangesToFeatures`, lines 506-520) -/

/-- The merge branch of the aggregation fold: confidence is the max, file and
test lists are concatenated and deduplicated via `new Set`, metadata is
shallow-merged with the incoming result overwriting on key collision. -/
def mergeFeature (existing incoming : ImpactedFeature) : ImpactedFeature :=
  { existing with
    confidence := max existing.confidence incoming.confidence
    impactedFiles := jsDedup (existing.impactedFiles ++ incoming.impactedFiles)
    testFiles := jsDedup (existing.testFiles ++ incoming.testFiles)
    metadata := jsMerge existing.metadata incoming.metadata }

/-- One step of the fold over `allFeatures` (a JS `Map`, modelled as an
association list in insertion order; `Map.set` on an existing key updates the
entry in place, otherwise appends). -/
def mapStep (m : List (String × ImpactedFeature)) (f : ImpactedFeature) :
    List (String × ImpactedFeature) :=
  match alookup f.featureName m with
  | some _ => m.map (fun p => if p.1 = f.featureName then (p.1, mergeFeature p.2 f) else p)
  | none => m ++ [(f.featureName, f)]

/-- The aggregation fold over one list of strategy results. -/
def foldFeatures (fs : List ImpactedFeature) : List (String × ImpactedFeature) :=
  fs.foldl mapStep []

/-! ## Final sort (`mapChangesToFeatures`, lines 534-535)

`Array.from(allFeatures.values()).sort((a, b) => b.confidence - a.confidence)`:
JS `Array.prototype.sort` is a stable sort, so it is modelled by the (stable)
insertion sort on the relation "has confidence at least that of". -/

/-- `a` may be placed before `b` in the descending-confidence order. -/
def confGe (a b : ImpactedFeature) : Prop := b.confidence ≤ a.confidence

instance : DecidableRel confGe := fun a b =>
  inferInstanceAs (Decidable (b.confidence ≤ a.confidence))

instance : IsTotal ImpactedFeature confGe := ⟨fun a b => le_total b.confidence a.confidence⟩

instance : IsTrans ImpactedFeature confGe := ⟨fun _ _ _ h1 h2 => le_trans h2 h1⟩

/-- The final descending stable sort by confidence. -/
def sortByConfidence (l : List ImpactedFeature) : List ImpactedFeature :=
  List.insertionSort confGe l

/-! ## Syntax trees and the external environment

A tree-sitter syntax tree: every node has a node type, a source text and
children.  The parser itself is an external collaborator. -/

/-- A tree-sitter syntax node. -/
inductive STree where
  | node (ty : String) (text : String) (children : List STree)

/-- The node type (`node.type`). -/
def STree.ty : STree → String
  | .node t _ _ => t

/-- The node source text (`node.text`). -/
def STree.text : STree → String
  | .node _ tx _ => tx

/-- The child nodes. -/
def STree.children : STree → List STree
  | .node _ _ ch => ch

/-- External collaborators of the pipeline, modelled as oracles:
file-system globbing, the `minimatch` glob matcher, file reading,
the JS regex engine (annotation capture groups and the glob-to-regex
matcher of the Playwright integration) and the head-revision
content fetch combined with the tree-sitter parse. -/
structure Env where
  glob : String → List String
  minimatch : String → String → Bool
  readFile : String → Except String String
  annotationMatches : String → List String
  parseHead : String → Option STree
  regexTest : String → String → Bool

/-! ## Git diff analysis (`git-analyzer.js`) -/

/-- One entry of the `simple-git` diff summary. -/
structure FileSummary where
  file : String
  insertions : ℕ
  deletions : ℕ
  binary : Bool
deriving DecidableEq, Repr

/-- The change-type classification of `analyzeFileChange`
(`git-analyzer.js` lines 197-207). -/
def classifyChange (fs : FileSummary) : ChangeType :=
  if fs.binary then ChangeType.modified
  else if fs.insertions > 0 ∧ fs.deletions = 0 then ChangeType.added
  else if fs.insertions = 0 ∧ fs.deletions > 0 then ChangeType.deleted
  else ChangeType.modified

/-- JS `path.basename`: the last `/`-separated segment. -/
def basenameOf (p : String) : String :=
  (splitOnChar '/' p).getLastD ""

/-- JS `path.extname`: the suffix of the basename from its last `.`, empty
when there is no dot or the only dot is leading (hidden files). -/
def extnameOf (p : String) : String :=
  match splitOnChar '.' (basenameOf p) with
  | [] => ""
  | [_] => ""
  | [h, t] => if h = "" then "" else "." ++ t
  | parts => "." ++ parts.getLastD ""

/-- The `LANGUAGE_EXTENSIONS` table of `git-analyzer.js`. -/
def languageOfExtension (ext : String) : Option String :=
  if ext = ".js" ∨ ext = ".jsx" then some "javascript"
  else if ext = ".ts" ∨ ext = ".tsx" then some "typescript"
  else if ext = ".py" then some "python"
  else if ext = ".json" then some "json"
  else if ext = ".yaml" ∨ ext = ".yml" then some "yaml"
  else if ext = ".md" then some "markdown"
  else if ext = ".html" then some "html"
  else if ext = ".css" then some "css"
  else if ext = ".scss" then some "scss"
  else if ext = ".sass" then some "sass"
  else none

/-- `GitDiffAnalyzer.detectLanguage`. -/
def detectLanguage (filePath : String) : Option String :=
  languageOfExtension (lowerStr (extnameOf filePath))

/-- The `PARSERS` table registers parsers for these languages only. -/
def parserRegistered (lang : String) : Bool :=
  lang = "javascript" ∨ lang = "typescript" ∨ lang = "python"

/-- The per-language function-like node kinds (`isFunctionNode`). -/
def functionNodeTypes (lang : String) : List String :=
  if lang = "javascript" ∨ lang = "typescript" then
    ["function_declaration", "arrow_function", "method_definition"]
  else if lang = "python" then ["function_definition"]
  else []

/-- The per-language class-like node kinds (`isClassNode`). -/
def classNodeTypes (lang : String) : List String :=
  if lang = "javascript" ∨ lang = "typescript" then ["class_declaration"]
  else if lang = "python" then ["class_definition"]
  else []

/-- The per-language import-like node kinds (`isImportNode`). -/
def importNodeTypes (lang : String) : List String :=
  if lang = "javascript" ∨ lang = "typescript" then ["import_statement"]
  else if lang = "python" then ["import_statement", "import_from_statement"]
  else []

/-- `GitDiffAnalyzer.extractNodeName`: the text of the first direct child
whose node type is `identifier`. -/
def extractNodeName (n : STree) : Option String :=
  (n.children.find? (fun c => decide (c.ty = "identifier"))).map STree.text

/-- The callback applied at a node by `extractClasses`: for a class-like node
whose extracted name is truthy (non-empty), produce that name. -/
def classStep (lang : String) (n : STree) : Option String :=
  if n.ty ∈ classNodeTypes lang then
    match extractNodeName n with
    | some s => if s = "" then none else some s
    | none => none
  else none

/-- The callback applied at a node by `extractFunctions` (dead code in the
source, see `getFunctionQuery`). -/
def functionStep (lang : String) (n : STree) : Option String :=
  if n.ty ∈ functionNodeTypes lang then
    match extractNodeName n with
    | some s => if s = "" then none else some s
    | none => none
  else none

/-- The callback applied at a node by `extractImports`: for an import-like
node with truthy text, produce the trimmed text. -/
def importStep (lang : String) (n : STree) : Option String :=
  if n.ty ∈ importNodeTypes lang then
    (if n.text = "" then none else some (trimStr n.text))
  else none

mutual

/-- `GitDiffAnalyzer.walkTree`: visit the node (appending what the callback
produces to the accumulated array), then visit the children in order. -/
def walkCollect (step : STree → Option String) (acc : List String) : STree → List String
  | STree.node ty tx ch =>
    let acc1 := match step (STree.node ty tx ch) with
      | some s => acc ++ [s]
      | none => acc
    walkCollectList step acc1 ch

/-- Visit a sibling list left to right, threading the accumulator. -/
def walkCollectList (step : STree → Option String) (acc : List String) :
    List STree → List String
  | [] => acc
  | t :: ts => walkCollectList step (walkCollect step acc t) ts

end

/-- `GitDiffAnalyzer.getFunctionQuery`: always returns `null`
("This could be enhanced with proper tree-sitter queries"). -/
def getFunctionQuery (_lang : String) : Option Unit := none

/-- `GitDiffAnalyzer.extractFunctions`: bails out with the empty array when
`getFunctionQuery` yields nothing, otherwise walks the tree. -/
def extractFunctions (tree : STree) (lang : String) : List String :=
  match getFunctionQuery lang with
  | none => []
  | some _ => walkCollect (functionStep lang) [] tree

/-- `GitDiffAnalyzer.extractClasses`. -/
def extractClasses (tree : STree) (lang : String) : List String :=
  walkCollect (classStep lang) [] tree

/-- `GitDiffAnalyzer.extractImports`. -/
def extractImports (tree : STree) (lang : String) : List String :=
  walkCollect (importStep lang) [] tree

/-- `GitDiffAnalyzer.performSyntaxAnalysis`: skip when the language is
unknown or has no registered parser; otherwise parse the head-revision
content (oracle `parseHead`, `none` when the content is empty or the fetch
failed) and populate the three symbol lists from the new tree. -/
def performSyntaxAnalysis (env : Env) (c : CodeChange) : CodeChange :=
  match detectLanguage c.filePath with
  | none => c
  | some lang =>
    if parserRegistered lang then
      match env.parseHead c.filePath with
      | some newTree =>
        { c with
          functionsChanged := extractFunctions newTree lang
          classesChanged := extractClasses newTree lang
          importsChanged := extractImports newTree lang }
      | none => c
    else c

/-- `GitDiffAnalyzer.analyzeFileChange`: classify the change, then perform
syntax analysis unless the file is binary or the change is a deletion. -/
def analyzeFileChange (env : Env) (fs : FileSummary) : CodeChange :=
  let ct := classifyChange fs
  let change : CodeChange :=
    { filePath := fs.file, changeType := ct,
      linesAdded := fs.insertions, linesRemoved := fs.deletions }
  if fs.binary = false ∧ ct ≠ ChangeType.deleted then
    performSyntaxAnalysis env change
  else change

/-! ## Mapping strategies (`feature-mapper.js`) -/

/-- The common glob suffix `.{test,spec}.{js,ts}` of the hard-coded test
file patterns. -/
def specSuffix : String := ".\x7btest,spec\x7d.\x7bjs,ts\x7d"

/-- JS `Array.prototype.indexOf` returning an index only when found. -/
def jsIndexOf (l : List String) (s : String) : Option ℕ :=
  l.findIdx? (fun x => decide (x = s))

/-- First path pattern of `FolderBasedStrategy.extractFeaturesFromPath`:
the segment following a `features` segment. -/
def folderPattern1 (parts : List String) : Option String :=
  match jsIndexOf parts "features" with
  | some i => if parts.length > i + 1 then parts[i + 1]? else none
  | none => none

/-- Second path pattern: the segment following a leading `src` segment. -/
def folderPattern2 (parts : List String) : Option String :=
  if parts.length ≥ 2 ∧ parts[0]? = some "src" then parts[1]? else none

/-- Third path pattern: the lower-cased segment following a `components`
segment. -/
def folderPattern3 (parts : List String) : Option String :=
  match jsIndexOf parts "components" with
  | some i => if parts.length > i + 1 then (parts[i + 1]?).map lowerStr else none
  | none => none

/-- `FolderBasedStrategy.extractFeaturesFromPath`: apply the three patterns
in order, skipping falsy results, and collect into a `Set`. -/
def extractFeaturesFromPath (parts : List String) : List String :=
  jsDedup ((([folderPattern1 parts, folderPattern2 parts,
      folderPattern3 parts].filterMap id).filter (fun s => s ≠ "")))

/-- The conventional test directories searched by the folder strategy. -/
def testDirs : List String := ["tests", "test", "__tests__", "spec", "e2e"]

/-- `FolderBasedStrategy.findTestFiles`: glob three patterns per test
directory and deduplicate. -/
def findTestFiles (env : Env) (featureName : String) : List String :=
  jsDedup (testDirs.flatMap (fun d =>
    [d ++ "/**/" ++ featureName ++ "*" ++ specSuffix,
     d ++ "/**/*" ++ featureName ++ "*" ++ specSuffix,
     d ++ "/" ++ featureName ++ "/**/*" ++ specSuffix].flatMap env.glob))

/-- `FolderBasedStrategy.mapChangesToFeatures`: one result per
(change, extracted feature) pair with a non-empty test file list; confidence
is `weight * 0.8`. -/
def folderBasedMap (env : Env) (weight : ℚ) (diff : DiffResult) : List ImpactedFeature :=
  diff.changes.flatMap (fun change =>
    (extractFeaturesFromPath (splitOnChar '/' change.filePath)).flatMap (fun featureName =>
      let testFiles := findTestFiles env featureName
      if testFiles ≠ [] then
        [{ featureName := featureName
           confidence := weight * 0.8
           impactedFiles := [change.filePath]
           testFiles := testFiles
           changeSummary := "Changes in " ++ featureName ++ " module"
           strategyUsed := "folder_based" }]
      else []))

/-- A `FeatureMapping` entry of the configuration (`config.features`);
absent pattern lists are the JS `|| []` default, `confidence` is optional
because the code applies `|| 1.0` to it. -/
structure FeatureMappingDef where
  source_patterns : List String := []
  test_patterns : List String := []
  confidence : Option ℚ := none
  metadata : List (String × MetaVal) := []
deriving DecidableEq, Repr

/-- `FileBasedStrategy.matchesPatterns` (via `minimatch`). -/
def matchesPatterns (env : Env) (filePath : String) (patterns : List String) : Bool :=
  patterns.any (fun pat => env.minimatch filePath pat)

/-- `FileBasedStrategy.resolveTestPatterns`: glob each pattern, deduplicate. -/
def resolveTestPatterns (env : Env) (patterns : List String) : List String :=
  jsDedup (patterns.flatMap env.glob)

/-- `FileBasedStrategy.mapChangesToFeatures`: one result per
(change, configured feature) pair whose source patterns match the file;
confidence is `weight * (mapping.confidence || 1.0)`. -/
def fileBasedMap (env : Env) (weight : ℚ) (diff : DiffResult)
    (existingMappings : List (String × FeatureMappingDef)) : List ImpactedFeature :=
  diff.changes.flatMap (fun change =>
    existingMappings.flatMap (fun p =>
      if matchesPatterns env change.filePath p.2.source_patterns then
        [{ featureName := p.1
           confidence := weight * jsNumOr p.2.confidence 1
           impactedFiles := [change.filePath]
           testFiles := resolveTestPatterns env p.2.test_patterns
           changeSummary := "Changes in " ++ p.1 ++ " feature"
           strategyUsed := "file_based"
           metadata := p.2.metadata }]
      else []))

/-- `AnnotationBasedStrategy.findTestFilesForFeature`. -/
def findTestFilesForFeature (env : Env) (featureName : String) : List String :=
  jsDedup ((["tests", "test", "__tests__"].map
    (fun d => d ++ "/**/*" ++ featureName ++ "*" ++ specSuffix)).flatMap env.glob)

/-- `AnnotationBasedStrategy.extractAnnotations`: the capture groups of the
marker regexes (oracle), lower-cased, collected into a `Set`. -/
def annotationsOf (env : Env) (content : String) : List String :=
  jsDedup ((env.annotationMatches content).map lowerStr)

/-- `AnnotationBasedStrategy.mapChangesToFeatures`: skip deleted files;
a failed file read is caught per change and contributes nothing; confidence
is `weight * 0.9`. -/
def annotationBasedMap (env : Env) (weight : ℚ) (diff : DiffResult) : List ImpactedFeature :=
  diff.changes.flatMap (fun change =>
    if change.changeType = ChangeType.deleted then []
    else
      match env.readFile change.filePath with
      | .error _ => []
      | .ok content =>
        (annotationsOf env content).map (fun featureName =>
          { featureName := featureName
            confidence := weight * 0.9
            impactedFiles := [change.filePath]
            testFiles := findTestFilesForFeature env featureName
            changeSummary := "Annotated feature: " ++ featureName
            strategyUsed := "annotation_based" }))

/-- `symbol.replace(/([A-Z])/g, ' $1').trim().split(' ')`. -/
def camelSplit (s : String) : List String :=
  splitOnChar ' ' (trimStr (String.mk (s.data.flatMap (fun c => if c.isUpper then [' ', c] else [c]))))

/-- `ASTBasedStrategy.extractFeatureFromSymbol`: the first camel-case word
when there are several, lower-cased. -/
def extractFeatureFromSymbol (symbol : String) : String :=
  let words := camelSplit symbol
  if words.length > 1 then lowerStr (words.getD 0 "") else lowerStr symbol

/-- JS `path.basename(p, path.extname(p))`. -/
def basenameWithoutExt (p : String) : String :=
  let b := basenameOf p
  let e := extnameOf p
  if e ≠ "" ∧ e ≠ b ∧ endsWithStr b e then dropRightStr b e.length else b

/-- `ASTBasedStrategy.extractFeatureFromPath`: lower-cased basename with
`-`/`_` stripped. -/
def extractFeatureFromPath (filePath : String) : String :=
  stripSeparators (lowerStr (basenameWithoutExt filePath))

/-- `ASTBasedStrategy.mapSymbolsToFeatures`: a guess per symbol plus a guess
from the file path, with falsy guesses skipped, collected into a `Set`. -/
def mapSymbolsToFeatures (symbols : List String) (filePath : String) : List String :=
  let pathFeature := extractFeatureFromPath filePath
  jsDedup (((symbols.map extractFeatureFromSymbol).filter (fun s => s ≠ "")) ++
    (if pathFeature ≠ "" then [pathFeature] else []))

/-- `ASTBasedStrategy.findTestsForSymbols`. -/
def findTestsForSymbols (env : Env) (symbols : List String) (featureName : String) :
    List String :=
  jsDedup ((symbols.flatMap (fun s =>
    ["tests/**/*" ++ s ++ "*" ++ specSuffix,
     "test/**/*" ++ s ++ "*" ++ specSuffix,
     "tests/**/*" ++ featureName ++ "*" ++ specSuffix])).flatMap env.glob)

/-- `ASTBasedStrategy.mapChangesToFeatures`: operates on
`functionsChanged ++ classesChanged`; confidence is `weight * 0.7`. -/
def astBasedMap (env : Env) (weight : ℚ) (diff : DiffResult) : List ImpactedFeature :=
  diff.changes.flatMap (fun change =>
    let changedSymbols := change.functionsChanged ++ change.classesChanged
    if changedSymbols ≠ [] then
      (mapSymbolsToFeatures changedSymbols change.filePath).map (fun featureName =>
        { featureName := featureName
          confidence := weight * 0.7
          impactedFiles := [change.filePath]
          testFiles := findTestsForSymbols env changedSymbols featureName
          changeSummary := "Symbol changes: " ++ joinWith ", " changedSymbols
          strategyUsed := "ast_based"
          metadata := [("changedSymbols", MetaVal.strs changedSymbols)] })
    else [])

/-! ## The strategy engine (`FeatureMapper`) -/

/-- The `MappingStrategy` enum (unknown type tags are skipped by
`initializeStrategies`, so only the four known tags are modelled). -/
inductive StrategyType where
  | folder_based
  | file_based
  | annotation_based
  | ast_based
deriving DecidableEq, Repr

/-- The string tag of a strategy type. -/
def StrategyType.tag : StrategyType → String
  | .folder_based => "folder_based"
  | .file_based => "file_based"
  | .annotation_based => "annotation_based"
  | .ast_based => "ast_based"

/-- One entry of `config.feature_detection.strategies`. -/
structure StrategyConfig where
  type : StrategyType
  weight : Option ℚ := none
  enabled : Bool := true
deriving DecidableEq, Repr

/-- The part of the TEO configuration the mapper reads. -/
structure MapperConfig where
  strategies : List StrategyConfig := []
  features : List (String × FeatureMappingDef) := []
deriving DecidableEq, Repr

/-- One step of `FeatureMapper.initializeStrategies`: a disabled entry is
skipped, a duplicate type overwrites the `Map` entry in place, a new type is
appended. -/
def initStep (m : List (StrategyType × StrategyConfig)) (c : StrategyConfig) :
    List (StrategyType × StrategyConfig) :=
  if c.enabled = false then m
  else if m.any (fun p => p.1 = c.type) then
    m.map (fun p => if p.1 = c.type then (p.1, c) else p)
  else m ++ [(c.type, c)]

/-- `FeatureMapper.initializeStrategies`: fold the configured strategies
into the `this.strategies` `Map` keyed by type. -/
def initializeStrategies (cfgs : List StrategyConfig) :
    List (StrategyType × StrategyConfig) :=
  cfgs.foldl initStep []

/-- Run one strategy (`strategy.mapChangesToFeatures(diffResult,
existingMappings)`); the weight is `config.weight || 1.0` computed in
`BaseMappingStrategy`'s constructor. -/
def runStrategy (env : Env) (config : MapperConfig) (diff : DiffResult)
    (t : StrategyType) (c : StrategyConfig) : List ImpactedFeature :=
  let weight := jsNumOr c.weight 1
  match t with
  | .folder_based => folderBasedMap env weight diff
  | .file_based => fileBasedMap env weight diff config.features
  | .annotation_based => annotationBasedMap env weight diff
  | .ast_based => astBasedMap env weight diff

/-- One iteration of the strategy loop of `FeatureMapper.mapChangesToFeatures`
(lines 500-532): an `ok` outcome's results are folded into `allFeatures`,
an exception is caught and recorded as a `Strategy failed` diagnostic. -/
def outcomeStep (st : List (String × ImpactedFeature) × List (String × String))
    (o : String × Except String (List ImpactedFeature)) :
    List (String × ImpactedFeature) × List (String × String) :=
  match o.2 with
  | .ok fs => (fs.foldl mapStep st.1, st.2)
  | .error e => (st.1, st.2 ++ [(o.1, e)])

/-- The state after processing every strategy outcome: the `allFeatures`
map and the recorded diagnostics. -/
def foldOutcomes (outcomes : List (String × Except String (List ImpactedFeature))) :
    List (String × ImpactedFeature) × List (String × String) :=
  outcomes.foldl outcomeStep ([], [])

/-- The strategy loop of `FeatureMapper.mapChangesToFeatures` (lines
500-535) over a list of per-strategy outcomes, followed by the final
descending stable sort of the map's values. -/
def runMapping (outcomes : List (String × Except String (List ImpactedFeature))) :
    List ImpactedFeature × List (String × String) :=
  let st := foldOutcomes outcomes
  (sortByConfidence (st.1.map Prod.snd), st.2)

/-- `FeatureMapper.mapChangesToFeatures`: run every initialized strategy
(the concrete strategies are total once the collaborators are, so each
outcome is `ok`), aggregate and sort. -/
def mapChangesToFeatures (env : Env) (config : MapperConfig) (diff : DiffResult) :
    List ImpactedFeature × List (String × String) :=
  runMapping ((initializeStrategies config.strategies).map
    (fun p => (p.1.tag, Except.ok (runStrategy env config diff p.1 p.2))))

/-! ## Test selection (`playwright-integration.js`) -/

/-- One selected test with provenance. -/
structure SelectionEntry where
  path : String
  feature : String
  confidence : ℚ
  strategy : String
  reason : String
deriving DecidableEq, Repr

/-- One per-feature selection reason record. -/
structure SelectionReason where
  feature : String
  confidence : ℚ
  testsSelected : ℕ
  strategy : String
deriving DecidableEq, Repr

/-- A JS number as produced by the summary arithmetic: a rational, `NaN`
or a signed infinity. -/
inductive JSNum where
  | num (q : ℚ)
  | nan
  | posInf
  | negInf
deriving DecidableEq, Repr

/-- JS division of two rationals: `0/0` is `NaN`, `q/0` is a signed
infinity. -/
def jsDivNum (a b : ℚ) : JSNum :=
  if b = 0 then (if a = 0 then JSNum.nan else if a > 0 then JSNum.posInf else JSNum.negInf)
  else JSNum.num (a / b)

/-- `Math.round((1 - selected/available) * 100)` with JS number semantics:
`1 - NaN` is `NaN`, `1 - ∞ = -∞`, and `Math.round` propagates both. -/
def computeReduction (selected available : ℕ) : JSNum :=
  match jsDivNum (selected : ℚ) (available : ℚ) with
  | JSNum.num q => JSNum.num ((jsRound ((1 - q) * 100) : ℤ) : ℚ)
  | JSNum.nan => JSNum.nan
  | JSNum.posInf => JSNum.negInf
  | JSNum.negInf => JSNum.posInf

/-- The summary block of `selectTests`. -/
structure SelectionSummary where
  totalAvailable : ℕ
  totalSelected : ℕ
  reductionPercentage : JSNum
deriving DecidableEq, Repr

/-- The value returned by `PlaywrightIntegration.selectTests`. -/
structure SelectTestsResult where
  selectedTests : List SelectionEntry
  selectionReasons : List SelectionReason
  summary : SelectionSummary
deriving DecidableEq, Repr

/-- `PlaywrightIntegration.matchTestsToFeature`: prefer the feature's test
patterns (matched through the glob-to-regex oracle); when nothing matched,
fall back to lower-cased feature-name substring matching; deduplicate. -/
def matchTestsToFeature (env : Env) (testFiles : List String)
    (feature : ImpactedFeature) : List String :=
  let fromPatterns :=
    if feature.testFiles ≠ [] then
      feature.testFiles.flatMap (fun pat => testFiles.filter (fun f => env.regexTest f pat))
    else []
  let matching :=
    if fromPatterns = [] then
      let fname := lowerStr feature.featureName
      fromPatterns ++ testFiles.filter (fun f =>
        strContains (lowerStr f) fname ∨ strContains (lowerStr f) (stripSeparators fname))
    else fromPatterns
  jsDedup matching

/-- The `SelectionEntry` pushed by `selectTests` for a test claimed by a
feature. -/
def mkEntry (f : ImpactedFeature) (t : String) : SelectionEntry :=
  { path := t, feature := f.featureName, confidence := f.confidence,
    strategy := f.strategyUsed,
    reason := f.featureName ++ " feature impacted (" ++
      toString (jsRound (f.confidence * 100)) ++ "% confidence)" }

/-- The inner guard of `selectTests`: a test already claimed by an earlier
entry is skipped. -/
def addSelected (f : ImpactedFeature) (acc : List SelectionEntry) (t : String) :
    List SelectionEntry :=
  if acc.any (fun e => e.path = t) then acc else acc ++ [mkEntry f t]

/-- The body of the per-feature loop of `selectTests`. -/
def selectStep (env : Env) (testFiles : List String)
    (st : List SelectionEntry × List SelectionReason) (f : ImpactedFeature) :
    List SelectionEntry × List SelectionReason :=
  let featureTests := matchTestsToFeature env testFiles f
  let sel := featureTests.foldl (addSelected f) st.1
  let reasons :=
    if featureTests ≠ [] then
      st.2 ++ [{ feature := f.featureName, confidence := f.confidence,
                 testsSelected := featureTests.length, strategy := f.strategyUsed }]
    else st.2
  (sel, reasons)

/-- `PlaywrightIntegration.selectTests`. -/
def selectTests (env : Env) (allTestFiles : List String)
    (impactedFeatures : List ImpactedFeature) : SelectTestsResult :=
  let st := impactedFeatures.foldl (selectStep env allTestFiles) ([], [])
  { selectedTests := st.1
    selectionReasons := st.2
    summary := { totalAvailable := allTestFiles.length
                 totalSelected := st.1.length
                 reductionPercentage := computeReduction st.1.length allTestFiles.length } }

/-! ## Engine (`engine.js`, `TEOEngine.analyze`, steps 2 and 4) -/

/-- The stub selection the engine produces when no feature was detected. -/
def emptySelection : SelectTestsResult :=
  { selectedTests := [], selectionReasons := [],
    summary := { totalAvailable := 0, totalSelected := 0,
                 reductionPercentage := JSNum.num 0 } }

/-- The mapping and selection steps of `TEOEngine.analyze`: map changes to
features, then select tests when at least one feature was detected. -/
def analyzeCore (env : Env) (config : MapperConfig) (diff : DiffResult)
    (availableTests : List String) : List ImpactedFeature × SelectTestsResult :=
  let featureMapping := (mapChangesToFeatures env config diff).1
  if featureMapping.length > 0 then
    (featureMapping, selectTests env availableTests featureMapping)
  else
    (featureMapping, emptySelection)

/-! ## Derived notions used by the statements -/

/-- Merging a seed result with a list of later results for the same feature,
in processing order (what the aggregation fold computes per key). -/
def mergeList (c : ImpactedFeature) (cs : List ImpactedFeature) : ImpactedFeature :=
  cs.foldl mergeFeature c

/-- The merged entry determined by the (possibly empty) list of contributing
results for one feature name. -/
def mergeContrib : List ImpactedFeature → Option ImpactedFeature
  | [] => none
  | c :: cs => some (mergeList c cs)

/-- The concatenation, in engine order, of the results of every initialized
strategy: exactly the results the aggregation fold of
`mapChangesToFeatures` processes. -/
def pipelineResults (env : Env) (config : MapperConfig) (diff : DiffResult) :
    List ImpactedFeature :=
  (initializeStrategies config.strategies).flatMap
    (fun p => runStrategy env config diff p.1 p.2)

mutual

/-- All nodes of a syntax tree in pre-order (the order `walkTree` visits
them). -/
def preorderNodes : STree → List STree
  | STree.node ty tx ch => STree.node ty tx ch :: preorderList ch

/-- Pre-order traversal of a sibling list. -/
def preorderList : List STree → List STree
  | [] => []
  | t :: ts => preorderNodes t ++ preorderList ts

end

/-- The collection the specification describes for functions: the names of
the function-like nodes found anywhere in the tree, a name being the first
identifier child of the node. -/
def specFunctionNames (t : STree) (lang : String) : List String :=
  (preorderNodes t).filterMap (functionStep lang)

/-- The collection the specification describes for classes. -/
def specClassNames (t : STree) (lang : String) : List String :=
  (preorderNodes t).filterMap (classStep lang)

/-- The collection the specification describes for imports. -/
def specImportTexts (t : STree) (lang : String) : List String :=
  (preorderNodes t).filterMap (importStep lang)

/-- The change-type classification exactly as the specification words it. -/
def specChangeType (binary : Bool) (insertions deletions : ℕ) : ChangeType :=
  if binary then ChangeType.modified
  else if insertions > 0 ∧ deletions = 0 then ChangeType.added
  else if insertions = 0 ∧ deletions > 0 then ChangeType.deleted
  else ChangeType.modified

/-! ## Concrete fixtures for witnesses and counterexamples -/

/-- An environment whose glob oracle always finds one payments test, whose
`minimatch` always matches, and whose other collaborators are inert. -/
def envScenC : Env :=
  { glob := fun _ => ["tests/payments/pay.spec.js"]
    minimatch := fun _ _ => true
    readFile := fun _ => Except.error "ENOENT"
    annotationMatches := fun _ => []
    parseHead := fun _ => none
    regexTest := fun _ _ => false }

/-- Scenario C configuration: a folder strategy and a file strategy (both
with the default weight `1.0`) over one configured `payments` feature. -/
def cfgScenC : MapperConfig :=
  { strategies :=
      [{ type := StrategyType.folder_based },
       { type := StrategyType.file_based }]
    features := [("payments", { source_patterns := ["src/**"] })] }

/-- Scenario C diff: one modified payments source file. -/
def diffScenC : DiffResult :=
  { changes := [{ filePath := "src/payments/a.js", changeType := ChangeType.modified }] }

/-- An inert environment whose `minimatch` always matches. -/
def envMatchAll : Env :=
  { glob := fun _ => []
    minimatch := fun _ _ => true
    readFile := fun _ => Except.error "ENOENT"
    annotationMatches := fun _ => []
    parseHead := fun _ => none
    regexTest := fun _ _ => false }

/-- A configuration carrying an out-of-range strategy weight `2` (the code
never validates nor clamps it at run time). -/
def cfgWeightTwo : MapperConfig :=
  { strategies := [{ type := StrategyType.file_based, weight := some 2 }]
    features := [("payments", { source_patterns := ["src/**"], confidence := some 1 })] }

/-- One modified payments source file. -/
def diffOnePay : DiffResult :=
  { changes := [{ filePath := "src/pay.js", changeType := ChangeType.modified }] }

/-- A syntax tree with one named function declaration. -/
def sampleFunTree : STree :=
  STree.node "program" "function foo() {}"
    [STree.node "function_declaration" "function foo() {}"
      [STree.node "identifier" "foo" []]]

/-- An environment whose head-revision parse yields `sampleFunTree`. -/
def envParseFun : Env :=
  { glob := fun _ => []
    minimatch := fun _ _ => false
    readFile := fun _ => Except.error "ENOENT"
    annotationMatches := fun _ => []
    parseHead := fun _ => some sampleFunTree
    regexTest := fun _ _ => false }

/-- An environment for the test-selection scenarios: no test patterns match
through the regex oracle, so name-based fallback matching applies. -/
def envSelect : Env :=
  { glob := fun _ => []
    minimatch := fun _ _ => false
    readFile := fun _ => Except.error "ENOENT"
    annotationMatches := fun _ => []
    parseHead := fun _ => none
    regexTest := fun _ _ => false }

/-- Two ranked features that both name-match `tests/shared.spec.js`
(Scenario D). -/
def featsScenD : List ImpactedFeature :=
  [{ featureName := "shared", confidence := 0.9, strategyUsed := "file_based" },
   { featureName := "shared", confidence := 0.7, strategyUsed := "folder_based" }]

/-- The merged `payments` entry produced by the Scenario C pipeline: the
folder strategy contributes confidence `1 * 0.8`, the file strategy
`1 * 1`, and the fold keeps their maximum. -/
def mergedScenC : ImpactedFeature :=
  { featureName := "payments", confidence := max ((1 : ℚ) * 0.8) (1 * 1)
    impactedFiles := ["src/payments/a.js"]
    testFiles := ["tests/payments/pay.spec.js"]
    changeSummary := "Changes in payments module"
    strategyUsed := "folder_based", metadata := [] }

/-- The results contributed by an `ok` strategy outcome (an exception
contributes none). -/
def okResults (o : String × Except String (List ImpactedFeature)) : List ImpactedFeature :=
  match o.2 with
  | .ok fs => fs
  | .error _ => []

/-- The diagnostic contributed by a failing strategy outcome. -/
def errParts (o : String × Except String (List ImpactedFeature)) : List (String × String) :=
  match o.2 with
  | .ok _ => []
  | .error e => [(o.1, e)]

/-! ## Properties of the JS-semantics utilities -/

theorem mem_jsDedupAux {x : String} :
    ∀ (s l : List String), x ∈ jsDedupAux s l ↔ x ∈ l ∧ x ∉ s
  | s, [] => by simp [jsDedupAux]
  | s, a :: l => by
    by_cases ha : a ∈ s
    · rw [jsDedupAux, if_pos ha, mem_jsDedupAux s l]
      simp only [List.mem_cons]
      constructor
      · rintro ⟨hl, hs⟩
        exact ⟨Or.inr hl, hs⟩
      · rintro ⟨h | h, hs⟩
        · exact absurd (h ▸ ha) hs
        · exact ⟨h, hs⟩
    · rw [jsDedupAux, if_neg ha]
      simp only [List.mem_cons, mem_jsDedupAux (a :: s) l]
      constructor
      · rintro (rfl | ⟨hl, hs⟩)
        · exact ⟨Or.inl rfl, ha⟩
        · exact ⟨Or.inr hl, fun hxs => hs (Or.inr hxs)⟩
      · rintro ⟨rfl | hl, hs⟩
        · exact Or.inl rfl
        · by_cases hxa : x = a
          · exact Or.inl hxa
          · refine Or.inr ⟨hl, fun h => ?_⟩
            rcases h with h | h
            · exact hxa h
            · exact hs h

theorem nodup_jsDedupAux : ∀ (s l : List String), (jsDedupAux s l).Nodup
  | _, [] => List.nodup_nil
  | s, a :: l => by
    by_cases ha : a ∈ s
    · rw [jsDedupAux, if_pos ha]
      exact nodup_jsDedupAux s l
    · rw [jsDedupAux, if_neg ha]
      refine List.nodup_cons.2 ⟨fun hmem => ?_, nodup_jsDedupAux (a :: s) l⟩
      exact ((mem_jsDedupAux (a :: s) l).1 hmem).2 (List.mem_cons_self a s)

theorem jsDedupAux_eq_self :
    ∀ (s l : List String), l.Nodup → (∀ a ∈ l, a ∉ s) → jsDedupAux s l = l
  | _, [], _, _ => rfl
  | s, a :: l, hnd, hdisj => by
    have ha : a ∉ s := hdisj a (List.mem_cons_self a l)
    rw [jsDedupAux, if_neg ha]
    congr 1
    refine jsDedupAux_eq_self (a :: s) l (List.nodup_cons.1 hnd).2 (fun b hb hmem => ?_)
    rcases List.mem_cons.1 hmem with rfl | hbs
    · exact (List.nodup_cons.1 hnd).1 hb
    · exact hdisj b (List.mem_cons.2 (Or.inr hb)) hbs

theorem jsDedupAux_idem :
    ∀ (x : List String) (s y : List String),
      jsDedupAux s (jsDedupAux s x ++ y) = jsDedupAux s (x ++ y)
  | [], _, _ => rfl
  | a :: x, s, y => by
    by_cases ha : a ∈ s
    · rw [show jsDedupAux s (a :: x) = jsDedupAux s x from by rw [jsDedupAux, if_pos ha],
        show (a :: x) ++ y = a :: (x ++ y) from rfl,
        show jsDedupAux s (a :: (x ++ y)) = jsDedupAux s (x ++ y) from by
          rw [jsDedupAux, if_pos ha]]
      exact jsDedupAux_idem x s y
    · rw [show jsDedupAux s (a :: x) = a :: jsDedupAux (a :: s) x from by
          rw [jsDedupAux, if_neg ha],
        show (a :: jsDedupAux (a :: s) x) ++ y = a :: (jsDedupAux (a :: s) x ++ y) from rfl,
        show jsDedupAux s (a :: (jsDedupAux (a :: s) x ++ y)) =
            a :: jsDedupAux (a :: s) (jsDedupAux (a :: s) x ++ y) from by
          rw [jsDedupAux, if_neg ha],
        show (a :: x) ++ y = a :: (x ++ y) from rfl,
        show jsDedupAux s (a :: (x ++ y)) = a :: jsDedupAux (a :: s) (x ++ y) from by
          rw [jsDedupAux, if_neg ha]]
      congr 1
      exact jsDedupAux_idem x (a :: s) y

theorem mem_jsDedup {x : String} {l : List String} : x ∈ jsDedup l ↔ x ∈ l := by
  rw [jsDedup, mem_jsDedupAux]
  simp

theorem nodup_jsDedup (l : List String) : (jsDedup l).Nodup :=
  nodup_jsDedupAux [] l

theorem jsDedup_eq_self {l : List String} (h : l.Nodup) : jsDedup l = l :=
  jsDedupAux_eq_self [] l h (by simp)

theorem jsDedup_append_jsDedup (x y : List String) :
    jsDedup (jsDedup x ++ y) = jsDedup (x ++ y) :=
  jsDedupAux_idem x [] y

theorem alookup_nil {β : Type} (n : String) : alookup n ([] : List (String × β)) = none := rfl

theorem alookup_append_some {β : Type} {m1 m2 : List (String × β)} {n : String} {v : β}
    (h : alookup n m1 = some v) : alookup n (m1 ++ m2) = some v := by
  induction m1 with
  | nil => simp [alookup] at h
  | cons p m1 ih =>
    rw [alookup] at h
    by_cases hp : p.1 = n
    · rw [List.cons_append, alookup, if_pos hp]
      rwa [if_pos hp] at h
    · rw [List.cons_append, alookup, if_neg hp]
      rw [if_neg hp] at h
      exact ih h

theorem alookup_append_none {β : Type} {m1 : List (String × β)} {n : String}
    (m2 : List (String × β)) (h : alookup n m1 = none) :
    alookup n (m1 ++ m2) = alookup n m2 := by
  induction m1 with
  | nil => simp
  | cons p m1 ih =>
    rw [alookup] at h
    by_cases hp : p.1 = n
    · rw [if_pos hp] at h
      exact absurd h (by simp)
    · rw [if_neg hp] at h
      rw [List.cons_append, alookup, if_neg hp]
      exact ih h

theorem alookup_update {β : Type} (m : List (String × β)) (k n : String) (g : β → β) :
    alookup n (m.map (fun p => if p.1 = k then (p.1, g p.2) else p)) =
      if n = k then (alookup n m).map g else alookup n m := by
  induction m with
  | nil => simp [alookup]
  | cons p m ih =>
    by_cases hpk : p.1 = k
    · by_cases hnk : n = k
      · have hpn : p.1 = n := by rw [hpk, hnk]
        simp [alookup, hpk, hpn, hnk]
      · have hpn : ¬ p.1 = n := fun h => hnk (by rw [← h, hpk])
        have hkn : ¬ k = n := fun h => hnk h.symm
        simp [alookup, hpk, hpn, hnk, hkn, ih]
    · by_cases hpn : p.1 = n
      · have hnk : ¬ n = k := fun h => hpk (by rw [hpn, h])
        simp [alookup, hpk, hpn, hnk]
      · simp [alookup, hpk, hpn, ih]

/-! ## Characterization of the aggregation fold -/

theorem jsMerge_nil_left {β : Type} (b : List (String × β)) : jsMerge [] b = b := by
  simp [jsMerge, alookup]

theorem mapStep_lookup (m : List (String × ImpactedFeature)) (f : ImpactedFeature)
    (n : String) :
    alookup n (mapStep m f) =
      if n = f.featureName then
        some ((alookup n m).elim f (fun v => mergeFeature v f))
      else alookup n m := by
  unfold mapStep
  by_cases hn : n = f.featureName
  · subst hn
    cases hm : alookup f.featureName m with
    | none =>
      simp only [hm, if_pos rfl]
      rw [alookup_append_none _ hm]
      simp [alookup]
    | some v =>
      simp only [hm, if_pos rfl]
      rw [alookup_update m f.featureName f.featureName (fun x => mergeFeature x f),
        if_pos rfl, hm]
      rfl
  · have hfn : ¬ f.featureName = n := fun h2 => hn h2.symm
    cases hm : alookup f.featureName m with
    | none =>
      simp only [hm, if_neg hn]
      cases hm2 : alookup n m with
      | none =>
        rw [alookup_append_none _ hm2]
        simp [alookup, hfn, hm2]
      | some v =>
        rw [alookup_append_some hm2]
    | some v =>
      simp only [hm, if_neg hn]
      rw [alookup_update m f.featureName n (fun x => mergeFeature x f), if_neg hn]

theorem alookup_foldl_some :
    ∀ (fs : List ImpactedFeature) (m : List (String × ImpactedFeature)) (n : String)
      (v : ImpactedFeature), alookup n m = some v →
      alookup n (fs.foldl mapStep m) =
        some (mergeList v (fs.filter (fun r => r.featureName = n)))
  | [], _, n, v, h => by simpa [mergeList] using h
  | f :: fs, m, n, v, h => by
    rw [List.foldl_cons]
    by_cases hn : f.featureName = n
    · have hstep : alookup n (mapStep m f) = some (mergeFeature v f) := by
        rw [mapStep_lookup, if_pos hn.symm, h]
        rfl
      rw [alookup_foldl_some fs (mapStep m f) n (mergeFeature v f) hstep]
      simp [List.filter_cons, hn, mergeList]
    · have hstep : alookup n (mapStep m f) = some v := by
        rw [mapStep_lookup, if_neg (fun h2 => hn h2.symm), h]
      rw [alookup_foldl_some fs (mapStep m f) n v hstep]
      simp [List.filter_cons, hn]

theorem alookup_foldl_none :
    ∀ (fs : List ImpactedFeature) (m : List (String × ImpactedFeature)) (n : String),
      alookup n m = none →
      alookup n (fs.foldl mapStep m) =
        mergeContrib (fs.filter (fun r => r.featureName = n))
  | [], _, n, h => by simpa [mergeContrib] using h
  | f :: fs, m, n, h => by
    rw [List.foldl_cons]
    by_cases hn : f.featureName = n
    · have hstep : alookup n (mapStep m f) = some f := by
        rw [mapStep_lookup, if_pos hn.symm, h]
        rfl
      rw [alookup_foldl_some fs (mapStep m f) n f hstep]
      simp [List.filter_cons, hn, mergeContrib]
    · have hstep : alookup n (mapStep m f) = none := by
        rw [mapStep_lookup, if_neg (fun h2 => hn h2.symm), h]
      rw [alookup_foldl_none fs (mapStep m f) n hstep]
      simp [List.filter_cons, hn]

theorem alookup_foldFeatures (fs : List ImpactedFeature) (n : String) :
    alookup n (foldFeatures fs) =
      mergeContrib (fs.filter (fun r => r.featureName = n)) :=
  alookup_foldl_none fs [] n rfl

theorem mergeList_conf_ge :
    ∀ (cs : List ImpactedFeature) (c b : ImpactedFeature), b ∈ c :: cs →
      b.confidence ≤ (mergeList c cs).confidence
  | [], c, b, hb => by
    rcases List.mem_cons.1 hb with rfl | h
    · simp [mergeList]
    · simp at h
  | d :: cs, c, b, hb => by
    have hunfold : mergeList c (d :: cs) = mergeList (mergeFeature c d) cs := rfl
    rw [hunfold]
    rcases List.mem_cons.1 hb with rfl | hb1
    · refine le_trans ?_ (mergeList_conf_ge cs (mergeFeature b d) _ (List.mem_cons_self _ _))
      simp [mergeFeature]
    · rcases List.mem_cons.1 hb1 with rfl | hb2
      · refine le_trans ?_ (mergeList_conf_ge cs (mergeFeature c b) _ (List.mem_cons_self _ _))
        simp [mergeFeature]
      · exact mergeList_conf_ge cs (mergeFeature c d) b (List.mem_cons.2 (Or.inr hb2))

theorem mergeList_conf_mem :
    ∀ (cs : List ImpactedFeature) (c : ImpactedFeature),
      (mergeList c cs).confidence ∈ (c :: cs).map (fun r => r.confidence)
  | [], c => by simp [mergeList]
  | d :: cs, c => by
    have h := mergeList_conf_mem cs (mergeFeature c d)
    have hunfold : mergeList c (d :: cs) = mergeList (mergeFeature c d) cs := rfl
    rw [hunfold]
    simp only [List.map_cons, List.mem_cons] at h ⊢
    rcases h with h | h
    · rcases max_choice c.confidence d.confidence with hm | hm
      · left
        rw [h]
        simp [mergeFeature, hm]
      · right; left
        rw [h]
        simp [mergeFeature, hm]
    · right; right
      exact h

theorem mergeList_files :
    ∀ (cs : List ImpactedFeature) (c : ImpactedFeature), c.impactedFiles.Nodup →
      (mergeList c cs).impactedFiles =
        jsDedup (c.impactedFiles ++ cs.flatMap (fun r => r.impactedFiles))
  | [], c, h => by simp [mergeList, jsDedup_eq_self h]
  | d :: cs, c, h => by
    have hunfold : mergeList c (d :: cs) = mergeList (mergeFeature c d) cs := rfl
    rw [hunfold, mergeList_files cs (mergeFeature c d) (by
      show (jsDedup _).Nodup
      exact nodup_jsDedup _)]
    show jsDedup (jsDedup (c.impactedFiles ++ d.impactedFiles) ++ _) = _
    rw [jsDedup_append_jsDedup]
    simp [List.append_assoc]

theorem mergeList_tests :
    ∀ (cs : List ImpactedFeature) (c : ImpactedFeature), c.testFiles.Nodup →
      (mergeList c cs).testFiles =
        jsDedup (c.testFiles ++ cs.flatMap (fun r => r.testFiles))
  | [], c, h => by simp [mergeList, jsDedup_eq_self h]
  | d :: cs, c, h => by
    have hunfold : mergeList c (d :: cs) = mergeList (mergeFeature c d) cs := rfl
    rw [hunfold, mergeList_tests cs (mergeFeature c d) (by
      show (jsDedup _).Nodup
      exact nodup_jsDedup _)]
    show jsDedup (jsDedup (c.testFiles ++ d.testFiles) ++ _) = _
    rw [jsDedup_append_jsDedup]
    simp [List.append_assoc]

theorem mergeList_metadata :
    ∀ (cs : List ImpactedFeature) (c : ImpactedFeature),
      (mergeList c cs).metadata = cs.foldl (fun m r => jsMerge m r.metadata) c.metadata
  | [], _ => rfl
  | d :: cs, c => by
    have hunfold : mergeList c (d :: cs) = mergeList (mergeFeature c d) cs := rfl
    rw [hunfold, mergeList_metadata cs (mergeFeature c d)]
    rfl

/-! ## Stability of the final sort -/

theorem filter_orderedInsert (q : ℚ) (a : ImpactedFeature) :
    ∀ (m : List ImpactedFeature),
      (List.orderedInsert confGe a m).filter (fun f => f.confidence = q) =
        if a.confidence = q then
          a :: m.filter (fun f => f.confidence = q)
        else m.filter (fun f => f.confidence = q)
  | [] => by
    by_cases h : a.confidence = q <;> simp [List.orderedInsert, h]
  | b :: m => by
    by_cases hab : confGe a b
    · rw [List.orderedInsert, if_pos hab]
      by_cases h : a.confidence = q <;> simp [List.filter_cons, h]
    · rw [List.orderedInsert, if_neg hab]
      have hba : a.confidence < b.confidence := by
        simpa [confGe, not_le] using hab
      by_cases h : a.confidence = q
      · have hbq : ¬ b.confidence = q := by
          intro hb
          rw [← h] at hb
          exact absurd hb (ne_of_gt hba)
        simp [List.filter_cons, h, hbq, filter_orderedInsert q a m]
      · by_cases hb : b.confidence = q <;>
          simp [List.filter_cons, h, hb, filter_orderedInsert q a m]

theorem filter_insertionSort (q : ℚ) :
    ∀ (l : List ImpactedFeature),
      (List.insertionSort confGe l).filter (fun f => f.confidence = q) =
        l.filter (fun f => f.confidence = q)
  | [] => rfl
  | a :: l => by
    rw [List.insertionSort, filter_orderedInsert q a (List.insertionSort confGe l),
      filter_insertionSort q l]
    by_cases h : a.confidence = q <;> simp [List.filter_cons, h]

/-! ## The strategy loop as a function of the ok results -/

theorem foldl_outcomeStep :
    ∀ (outcomes : List (String × Except String (List ImpactedFeature)))
      (m : List (String × ImpactedFeature)) (d : List (String × String)),
      outcomes.foldl outcomeStep (m, d) =
        ((outcomes.flatMap okResults).foldl mapStep m, d ++ outcomes.flatMap errParts)
  | [], m, d => by simp
  | o :: os, m, d => by
    rcases o with ⟨name, oe⟩
    cases oe with
    | ok fs =>
      rw [List.foldl_cons]
      show os.foldl outcomeStep (fs.foldl mapStep m, d) = _
      rw [foldl_outcomeStep os (fs.foldl mapStep m) d]
      simp [okResults, errParts, List.foldl_append]
    | error e =>
      rw [List.foldl_cons]
      show os.foldl outcomeStep (m, d ++ [(name, e)]) = _
      rw [foldl_outcomeStep os m (d ++ [(name, e)])]
      simp [okResults, errParts]

theorem foldOutcomes_eq
    (outcomes : List (String × Except String (List ImpactedFeature))) :
    foldOutcomes outcomes =
      (foldFeatures (outcomes.flatMap okResults), outcomes.flatMap errParts) := by
  rw [foldOutcomes, foldl_outcomeStep]
  rfl

theorem runMapping_eq
    (outcomes : List (String × Except String (List ImpactedFeature))) :
    runMapping outcomes =
      (sortByConfidence ((foldFeatures (outcomes.flatMap okResults)).map Prod.snd),
        outcomes.flatMap errParts) := by
  rw [runMapping, foldOutcomes_eq]

theorem mapChangesToFeatures_eq (env : Env) (config : MapperConfig) (diff : DiffResult) :
    (mapChangesToFeatures env config diff).1 =
      sortByConfidence ((foldFeatures (pipelineResults env config diff)).map Prod.snd) := by
  rw [mapChangesToFeatures, runMapping_eq]
  have : ((initializeStrategies config.strategies).map
      (fun p => (p.1.tag, Except.ok (runStrategy env config diff p.1 p.2)))).flatMap okResults =
      pipelineResults env config diff := by
    rw [pipelineResults]
    induction initializeStrategies config.strategies with
    | nil => rfl
    | cons p ps ih => simp [okResults, ih]
  rw [this]

/-! ## Configurations reachable by `initializeStrategies` -/

theorem foldl_initStep_mem :
    ∀ (cfgs : List StrategyConfig) (m : List (StrategyType × StrategyConfig))
      (p : StrategyType × StrategyConfig),
      p ∈ cfgs.foldl initStep m → p.2 ∈ cfgs ∨ p ∈ m
  | [], _, _, h => Or.inr h
  | c :: cfgs, m, p, h => by
    rw [List.foldl_cons] at h
    rcases foldl_initStep_mem cfgs (initStep m c) p h with h1 | h1
    · exact Or.inl (List.mem_cons.2 (Or.inr h1))
    · unfold initStep at h1
      by_cases he : c.enabled = false
      · rw [if_pos he] at h1
        exact Or.inr h1
      · rw [if_neg he] at h1
        by_cases hany : m.any (fun q => q.1 = c.type)
        · rw [if_pos hany] at h1
          rcases List.mem_map.1 h1 with ⟨r, hr, hr2⟩
          by_cases hrt : r.1 = c.type
          · rw [if_pos hrt] at hr2
            left
            rw [← hr2]
            exact List.mem_cons_self _ _
          · rw [if_neg hrt] at hr2
            exact Or.inr (hr2 ▸ hr)
        · rw [if_neg hany] at h1
          rcases List.mem_append.1 h1 with h2 | h2
          · exact Or.inr h2
          · left
            have : p = (c.type, c) := by simpa using h2
            rw [this]
            exact List.mem_cons_self _ _

theorem initializeStrategies_cfg_mem {cfgs : List StrategyConfig}
    {p : StrategyType × StrategyConfig} (h : p ∈ initializeStrategies cfgs) :
    p.2 ∈ cfgs := by
  rcases foldl_initStep_mem cfgs [] p h with h1 | h1
  · exact h1
  · simp at h1

/-! ## Shape of each strategy's results -/

theorem folderBasedMap_mem (env : Env) (w : ℚ) (diff : DiffResult)
    (f : ImpactedFeature) (hf : f ∈ folderBasedMap env w diff) :
    f.confidence = w * 0.8 ∧ f.impactedFiles.Nodup ∧ f.testFiles.Nodup := by
  simp only [folderBasedMap, List.mem_flatMap] at hf
  obtain ⟨c, _, name, _, hf3⟩ := hf
  by_cases ht : findTestFiles env name ≠ []
  · rw [if_pos ht] at hf3
    simp only [List.mem_singleton] at hf3
    subst hf3
    refine ⟨rfl, by simp, ?_⟩
    show (findTestFiles env name).Nodup
    rw [findTestFiles]
    exact nodup_jsDedup _
  · rw [if_neg ht] at hf3
    simp at hf3

theorem fileBasedMap_mem (env : Env) (w : ℚ) (diff : DiffResult)
    (maps : List (String × FeatureMappingDef)) (f : ImpactedFeature)
    (hf : f ∈ fileBasedMap env w diff maps) :
    (∃ p ∈ maps, f.featureName = p.1 ∧
      f.confidence = w * jsNumOr p.2.confidence 1) ∧
      f.impactedFiles.Nodup ∧ f.testFiles.Nodup := by
  simp only [fileBasedMap, List.mem_flatMap] at hf
  obtain ⟨c, _, p, hp, hf3⟩ := hf
  by_cases hm : matchesPatterns env c.filePath p.2.source_patterns
  · rw [if_pos hm] at hf3
    simp only [List.mem_singleton] at hf3
    subst hf3
    refine ⟨⟨p, hp, rfl, rfl⟩, by simp, ?_⟩
    show (resolveTestPatterns env p.2.test_patterns).Nodup
    rw [resolveTestPatterns]
    exact nodup_jsDedup _
  · rw [if_neg hm] at hf3
    simp at hf3

theorem annotationBasedMap_mem (env : Env) (w : ℚ) (diff : DiffResult)
    (f : ImpactedFeature) (hf : f ∈ annotationBasedMap env w diff) :
    f.confidence = w * 0.9 ∧ f.impactedFiles.Nodup ∧ f.testFiles.Nodup := by
  simp only [annotationBasedMap, List.mem_flatMap] at hf
  obtain ⟨c, _, hf2⟩ := hf
  by_cases hd : c.changeType = ChangeType.deleted
  · rw [if_pos hd] at hf2
    simp at hf2
  · rw [if_neg hd] at hf2
    cases hr : env.readFile c.filePath with
    | error e =>
      rw [hr] at hf2
      simp at hf2
    | ok content =>
      rw [hr] at hf2
      rcases List.mem_map.1 hf2 with ⟨name, _, hf3⟩
      subst hf3
      refine ⟨rfl, by simp, ?_⟩
      show (findTestFilesForFeature env name).Nodup
      rw [findTestFilesForFeature]
      exact nodup_jsDedup _

theorem astBasedMap_mem (env : Env) (w : ℚ) (diff : DiffResult)
    (f : ImpactedFeature) (hf : f ∈ astBasedMap env w diff) :
    f.confidence = w * 0.7 ∧ f.impactedFiles.Nodup ∧ f.testFiles.Nodup := by
  simp only [astBasedMap, List.mem_flatMap] at hf
  obtain ⟨c, _, hf2⟩ := hf
  by_cases hs : c.functionsChanged ++ c.classesChanged ≠ []
  · rw [if_pos hs] at hf2
    rcases List.mem_map.1 hf2 with ⟨name, _, hf3⟩
    subst hf3
    refine ⟨rfl, by simp, ?_⟩
    show (findTestsForSymbols env _ name).Nodup
    rw [findTestsForSymbols]
    exact nodup_jsDedup _
  · rw [if_neg hs] at hf2
    simp at hf2

theorem runStrategy_nodup (env : Env) (config : MapperConfig) (diff : DiffResult)
    (t : StrategyType) (c : StrategyConfig) (f : ImpactedFeature)
    (hf : f ∈ runStrategy env config diff t c) :
    f.impactedFiles.Nodup ∧ f.testFiles.Nodup := by
  cases t with
  | folder_based => exact (folderBasedMap_mem _ _ _ _ hf).2
  | file_based => exact (fileBasedMap_mem _ _ _ _ _ hf).2
  | annotation_based => exact (annotationBasedMap_mem _ _ _ _ hf).2
  | ast_based => exact (astBasedMap_mem _ _ _ _ hf).2

theorem pipelineResults_nodup (env : Env) (config : MapperConfig) (diff : DiffResult)
    (f : ImpactedFeature) (hf : f ∈ pipelineResults env config diff) :
    f.impactedFiles.Nodup ∧ f.testFiles.Nodup := by
  rw [pipelineResults] at hf
  rcases List.mem_flatMap.1 hf with ⟨p, _, hf2⟩
  exact runStrategy_nodup env config diff p.1 p.2 f hf2

/-! ## Confidence bounds -/

theorem jsNumOr_unit_bound {v : Option ℚ}
    (h : ∀ q, v = some q → 0 ≤ q ∧ q ≤ 1) :
    0 ≤ jsNumOr v 1 ∧ jsNumOr v 1 ≤ 1 := by
  cases v with
  | none => norm_num [jsNumOr]
  | some q =>
    rw [jsNumOr]
    by_cases hq : q = 0
    · rw [if_pos hq]
      norm_num
    · rw [if_neg hq]
      exact h q rfl

theorem runStrategy_conf_bound (env : Env) (config : MapperConfig) (diff : DiffResult)
    (t : StrategyType) (c : StrategyConfig)
    (hw : ∀ w, c.weight = some w → 0 ≤ w ∧ w ≤ 1)
    (hc : ∀ p ∈ config.features, ∀ q, p.2.confidence = some q → 0 ≤ q ∧ q ≤ 1)
    (f : ImpactedFeature) (hf : f ∈ runStrategy env config diff t c) :
    0 ≤ f.confidence ∧ f.confidence ≤ 1 := by
  have hwb : 0 ≤ jsNumOr c.weight 1 ∧ jsNumOr c.weight 1 ≤ 1 := jsNumOr_unit_bound hw
  cases t with
  | folder_based =>
    have h := (folderBasedMap_mem _ _ _ _ hf).1
    rw [h]
    constructor
    · nlinarith [hwb.1]
    · nlinarith [hwb.1, hwb.2]
  | file_based =>
    obtain ⟨⟨p, hp, _, hconf⟩, _⟩ := fileBasedMap_mem _ _ _ _ _ hf
    have hqb : 0 ≤ jsNumOr p.2.confidence 1 ∧ jsNumOr p.2.confidence 1 ≤ 1 :=
      jsNumOr_unit_bound (hc p hp)
    rw [hconf]
    constructor
    · exact mul_nonneg hwb.1 hqb.1
    · nlinarith [hwb.1, hwb.2, hqb.1, hqb.2]
  | annotation_based =>
    have h := (annotationBasedMap_mem _ _ _ _ hf).1
    rw [h]
    constructor
    · nlinarith [hwb.1]
    · nlinarith [hwb.1, hwb.2]
  | ast_based =>
    have h := (astBasedMap_mem _ _ _ _ hf).1
    rw [h]
    constructor
    · nlinarith [hwb.1]
    · nlinarith [hwb.1, hwb.2]

theorem foldl_mapStep_conf_bound :
    ∀ (fs : List ImpactedFeature) (m : List (String × ImpactedFeature)),
      (∀ f ∈ fs, 0 ≤ f.confidence ∧ f.confidence ≤ 1) →
      (∀ p ∈ m, 0 ≤ p.2.confidence ∧ p.2.confidence ≤ 1) →
      ∀ p ∈ fs.foldl mapStep m, 0 ≤ p.2.confidence ∧ p.2.confidence ≤ 1
  | [], _, _, hm, p, hp => hm p hp
  | f :: fs, m, hfs, hm, p, hp => by
    rw [List.foldl_cons] at hp
    have hfb := hfs f (List.mem_cons_self f fs)
    refine foldl_mapStep_conf_bound fs (mapStep m f)
      (fun g hg => hfs g (List.mem_cons.2 (Or.inr hg))) ?_ p hp
    intro q hq
    unfold mapStep at hq
    cases hl : alookup f.featureName m with
    | none =>
      rw [hl] at hq
      rcases List.mem_append.1 hq with h2 | h2
      · exact hm q h2
      · have : q = (f.featureName, f) := by simpa using h2
        rw [this]
        exact hfb
    | some v =>
      rw [hl] at hq
      rcases List.mem_map.1 hq with ⟨r, hr, hr2⟩
      by_cases hrt : r.1 = f.featureName
      · rw [if_pos hrt] at hr2
        rw [← hr2]
        have hrb := hm r hr
        constructor
        · exact le_trans hrb.1 (le_max_left _ _)
        · exact max_le hrb.2 hfb.2
      · rw [if_neg hrt] at hr2
        rw [← hr2]
        exact hm r hr

/-! ## The cursor walk visits exactly the pre-order nodes -/

mutual

theorem walkCollect_eq (step : STree → Option String) :
    ∀ (acc : List String) (t : STree),
      walkCollect step acc t = acc ++ (preorderNodes t).filterMap step
  | acc, STree.node ty tx ch => by
    rw [walkCollect, preorderNodes]
    cases hstep : step (STree.node ty tx ch) with
    | none =>
      simp only [hstep]
      rw [walkCollectList_eq step acc ch]
      simp [List.filterMap_cons, hstep]
    | some s =>
      simp only [hstep]
      rw [walkCollectList_eq step (acc ++ [s]) ch]
      simp [List.filterMap_cons, hstep]

theorem walkCollectList_eq (step : STree → Option String) :
    ∀ (acc : List String) (ts : List STree),
      walkCollectList step acc ts = acc ++ (preorderList ts).filterMap step
  | acc, [] => by simp [walkCollectList, preorderList]
  | acc, t :: ts => by
    rw [walkCollectList, preorderList, walkCollect_eq step acc t,
      walkCollectList_eq step (acc ++ (preorderNodes t).filterMap step) ts]
    simp

end

theorem extractClasses_eq_spec (t : STree) (lang : String) :
    extractClasses t lang = specClassNames t lang := by
  rw [extractClasses, walkCollect_eq, specClassNames]
  rfl

theorem extractImports_eq_spec (t : STree) (lang : String) :
    extractImports t lang = specImportTexts t lang := by
  rw [extractImports, walkCollect_eq, specImportTexts]
  rfl

/-! ## The claimed-test fold of `selectTests` -/

theorem addFold_prefix (f : ImpactedFeature) :
    ∀ (ts : List String) (acc : List SelectionEntry),
      ∃ new, ts.foldl (addSelected f) acc = acc ++ new
  | [], acc => ⟨[], by simp⟩
  | t :: ts, acc => by
    rw [List.foldl_cons]
    rcases addFold_prefix f ts (addSelected f acc t) with ⟨new, hnew⟩
    rw [hnew]
    unfold addSelected
    by_cases h : acc.any (fun e => e.path = t)
    · rw [if_pos h]
      exact ⟨new, rfl⟩
    · rw [if_neg h]
      exact ⟨mkEntry f t :: new, by simp⟩

theorem addFold_mem (f : ImpactedFeature) :
    ∀ (ts : List String) (acc : List SelectionEntry) (e : SelectionEntry),
      e ∈ ts.foldl (addSelected f) acc →
        e ∈ acc ∨ (e = mkEntry f e.path ∧ e.path ∈ ts ∧
          e.path ∉ acc.map (fun x => x.path))
  | [], _, _, h => Or.inl h
  | t :: ts, acc, e, h => by
    rw [List.foldl_cons] at h
    rcases addFold_mem f ts (addSelected f acc t) e h with h1 | ⟨he, hp, hnp⟩
    · unfold addSelected at h1
      by_cases hg : acc.any (fun x => x.path = t)
      · rw [if_pos hg] at h1
        exact Or.inl h1
      · rw [if_neg hg] at h1
        rcases List.mem_append.1 h1 with h2 | h2
        · exact Or.inl h2
        · have he : e = mkEntry f t := by simpa using h2
          right
          refine ⟨by rw [he]; simp [mkEntry], by rw [he]; exact List.mem_cons_self _ _, ?_⟩
          rw [he]
          show t ∉ acc.map (fun x => x.path)
          intro hmem
          rcases List.mem_map.1 hmem with ⟨x, hx, hxp⟩
          exact hg (List.any_eq_true.2 ⟨x, hx, by simp [hxp]⟩)
    · right
      refine ⟨he, List.mem_cons.2 (Or.inr hp), fun hmem => hnp ?_⟩
      unfold addSelected
      by_cases hg : acc.any (fun x => x.path = t)
      · rw [if_pos hg]
        exact hmem
      · rw [if_neg hg]
        rw [List.map_append]
        exact List.mem_append.2 (Or.inl hmem)

theorem addFold_nodup (f : ImpactedFeature) :
    ∀ (ts : List String) (acc : List SelectionEntry),
      (acc.map (fun e => e.path)).Nodup →
      ((ts.foldl (addSelected f) acc).map (fun e => e.path)).Nodup
  | [], _, h => h
  | t :: ts, acc, h => by
    rw [List.foldl_cons]
    refine addFold_nodup f ts _ ?_
    unfold addSelected
    by_cases hg : acc.any (fun x => x.path = t)
    · rw [if_pos hg]
      exact h
    · rw [if_neg hg]
      rw [List.map_append]
      refine List.Nodup.append h (by simp) ?_
      intro a ha hb
      have hat : a = t := by
        simpa [mkEntry] using hb
      rcases List.mem_map.1 ha with ⟨x, hx, hxp⟩
      exact hg (List.any_eq_true.2 ⟨x, hx, by simp [hxp, ← hat]⟩)

theorem addFold_covers (f : ImpactedFeature) :
    ∀ (ts : List String) (acc : List SelectionEntry) (p : String), p ∈ ts →
      ∃ e ∈ ts.foldl (addSelected f) acc, e.path = p
  | [], _, p, hp => absurd hp (List.not_mem_nil p)
  | t :: ts, acc, p, hp => by
    rw [List.foldl_cons]
    rcases List.mem_cons.1 hp with rfl | hp2
    · have hbase : ∃ e ∈ addSelected f acc p, e.path = p := by
        unfold addSelected
        by_cases hg : acc.any (fun x => x.path = p)
        · rw [if_pos hg]
          rcases List.any_eq_true.1 hg with ⟨x, hx, hxp⟩
          exact ⟨x, hx, by simpa using hxp⟩
        · rw [if_neg hg]
          exact ⟨mkEntry f p, by simp, by simp [mkEntry]⟩
      rcases hbase with ⟨e, he, hep⟩
      rcases addFold_prefix f ts (addSelected f acc p) with ⟨new, hnew⟩
      exact ⟨e, by rw [hnew]; exact List.mem_append.2 (Or.inl he), hep⟩
    · exact addFold_covers f ts (addSelected f acc t) p hp2

theorem selectStep_fst (env : Env) (files : List String)
    (st : List SelectionEntry × List SelectionReason) (f : ImpactedFeature) :
    (selectStep env files st f).1 =
      (matchTestsToFeature env files f).foldl (addSelected f) st.1 := rfl

theorem selectLoop_invariant (env : Env) (files : List String) :
    ∀ (fs processed : List ImpactedFeature)
      (st : List SelectionEntry × List SelectionReason),
      (st.1.map (fun e => e.path)).Nodup →
      (∀ e ∈ st.1, ∃ pre g post, processed = pre ++ g :: post ∧
        e = mkEntry g e.path ∧
        e.path ∈ matchTestsToFeature env files g ∧
        ∀ g2 ∈ pre, e.path ∉ matchTestsToFeature env files g2) →
      (∀ p g, g ∈ processed → p ∈ matchTestsToFeature env files g →
        ∃ e ∈ st.1, e.path = p) →
      ((((fs.foldl (selectStep env files) st).1.map (fun e => e.path)).Nodup) ∧
       (∀ e ∈ (fs.foldl (selectStep env files) st).1,
          ∃ pre g post, processed ++ fs = pre ++ g :: post ∧
          e = mkEntry g e.path ∧
          e.path ∈ matchTestsToFeature env files g ∧
          ∀ g2 ∈ pre, e.path ∉ matchTestsToFeature env files g2) ∧
       (∀ p g, g ∈ processed ++ fs → p ∈ matchTestsToFeature env files g →
          ∃ e ∈ (fs.foldl (selectStep env files) st).1, e.path = p))
  | [], processed, st, h1, h2, h3 => by
    refine ⟨h1, ?_, ?_⟩
    · simpa using h2
    · simpa using h3
  | f :: fs, processed, st, h1, h2, h3 => by
    have hstep : (selectStep env files st f).1 =
        (matchTestsToFeature env files f).foldl (addSelected f) st.1 := rfl
    have h1' : (((selectStep env files st f).1).map (fun e => e.path)).Nodup := by
      rw [hstep]
      exact addFold_nodup f _ _ h1
    have h2' : ∀ e ∈ (selectStep env files st f).1,
        ∃ pre g post, processed ++ [f] = pre ++ g :: post ∧
        e = mkEntry g e.path ∧
        e.path ∈ matchTestsToFeature env files g ∧
        ∀ g2 ∈ pre, e.path ∉ matchTestsToFeature env files g2 := by
      intro e he
      rw [hstep] at he
      rcases addFold_mem f _ _ e he with hold | ⟨hmk, hpm, hnp⟩
      · rcases h2 e hold with ⟨pre, g, post, hsplit, hmk, hgm, hpre⟩
        exact ⟨pre, g, post ++ [f], by rw [hsplit]; simp, hmk, hgm, hpre⟩
      · refine ⟨processed, f, [], by simp, hmk, hpm, ?_⟩
        intro g2 hg2 hin
        rcases h3 e.path g2 hg2 hin with ⟨e2, he2, hep2⟩
        exact hnp (List.mem_map.2 ⟨e2, he2, hep2⟩)
    have h3' : ∀ p g, g ∈ processed ++ [f] → p ∈ matchTestsToFeature env files g →
        ∃ e ∈ (selectStep env files st f).1, e.path = p := by
      intro p g hg hp
      rcases List.mem_append.1 hg with hg | hg
      · rcases h3 p g hg hp with ⟨e, he, hep⟩
        rcases addFold_prefix f (matchTestsToFeature env files f) st.1 with ⟨new, hnew⟩
        refine ⟨e, ?_, hep⟩
        rw [hstep, hnew]
        exact List.mem_append.2 (Or.inl he)
      · have hgf : g = f := by simpa using hg
        subst hgf
        rw [hstep]
        exact addFold_covers g _ st.1 p hp
    have IH := selectLoop_invariant env files fs (processed ++ [f])
      (selectStep env files st f) h1' h2' h3'
    have heq : (processed ++ [f]) ++ fs = processed ++ f :: fs := by simp
    rw [heq] at IH
    rw [List.foldl_cons]
    exact IH

/-! ## Behaviour on empty inputs and enriched changes -/

theorem runStrategy_nil (env : Env) (config : MapperConfig) (t : StrategyType)
    (c : StrategyConfig) : runStrategy env config { changes := [] } t c = [] := by
  cases t <;> rfl

theorem pipelineResults_nil (env : Env) (config : MapperConfig) :
    pipelineResults env config { changes := [] } = [] := by
  rw [pipelineResults]
  induction initializeStrategies config.strategies with
  | nil => rfl
  | cons p ps ih => simp [runStrategy_nil, ih]

theorem mapChangesToFeatures_nil (env : Env) (config : MapperConfig) :
    (mapChangesToFeatures env config { changes := [] }).1 = [] := by
  rw [mapChangesToFeatures_eq, pipelineResults_nil]
  rfl

theorem flatMap_const_nil {α β : Type} (l : List α) :
    l.flatMap (fun _ => ([] : List β)) = [] := by
  induction l with
  | nil => rfl
  | cons a l ih => simp [ih]

theorem matchTestsToFeature_nil (env : Env) (f : ImpactedFeature) :
    matchTestsToFeature env [] f = [] := by
  rw [matchTestsToFeature]
  by_cases h : f.testFiles ≠ [] <;> simp [h, jsDedup, jsDedupAux, flatMap_const_nil]

theorem selectTests_nil_files (env : Env) (features : List ImpactedFeature) :
    selectTests env [] features =
      { selectedTests := [], selectionReasons := [],
        summary := { totalAvailable := 0, totalSelected := 0,
                     reductionPercentage := JSNum.nan } } := by
  rw [selectTests]
  have hfold : features.foldl (selectStep env []) ([], []) = ([], []) := by
    induction features with
    | nil => rfl
    | cons f fs ih =>
      rw [List.foldl_cons]
      have hstep : selectStep env [] ([], []) f = ([], []) := by
        rw [selectStep, matchTestsToFeature_nil]
        simp
      rw [hstep, ih]
  rw [hfold]
  rfl

theorem analyzeFileChange_enriched (env : Env) (fs : FileSummary) (lang : String)
    (t : STree) (hb : fs.binary = false) (hd : classifyChange fs ≠ ChangeType.deleted)
    (hl : detectLanguage fs.file = some lang) (hp : parserRegistered lang = true)
    (ht : env.parseHead fs.file = some t) :
    analyzeFileChange env fs =
      { filePath := fs.file, changeType := classifyChange fs,
        linesAdded := fs.insertions, linesRemoved := fs.deletions,
        functionsChanged := extractFunctions t lang,
        classesChanged := extractClasses t lang,
        importsChanged := extractImports t lang } := by
  rw [analyzeFileChange]
  simp only [hb, true_and, ne_eq]
  rw [if_pos hd]
  rw [performSyntaxAnalysis]
  simp only [hl, hp, if_true, ht]

/-! ## The claims -/

/-- C1: for every collection of strategy results processed by the aggregation
fold of `FeatureMapper.mapChangesToFeatures`, and every feature name occurring
in it, the merged `ImpactedFeature` for that name has confidence equal to the
maximum confidence over all contributing results with that name, impacted
files equal to the duplicate-free union (in first-occurrence order) of their
impacted-file lists, test files equal to the duplicate-free union of their
test-file lists, and metadata equal to the shallow merge of their metadata in
processing order, later results overwriting earlier ones on key collision. -/
theorem teo_C1 (env : Env) (config : MapperConfig) (diff : DiffResult)
    (n : String) (f : ImpactedFeature)
    (hf : alookup n (foldFeatures (pipelineResults env config diff)) = some f) :
    ((∀ r ∈ (pipelineResults env config diff).filter (fun r => r.featureName = n),
        r.confidence ≤ f.confidence) ∧
      f.confidence ∈ ((pipelineResults env config diff).filter
        (fun r => r.featureName = n)).map (fun r => r.confidence)) ∧
    f.impactedFiles = jsDedup (((pipelineResults env config diff).filter
      (fun r => r.featureName = n)).flatMap (fun r => r.impactedFiles)) ∧
    f.testFiles = jsDedup (((pipelineResults env config diff).filter
      (fun r => r.featureName = n)).flatMap (fun r => r.testFiles)) ∧
    f.metadata = ((pipelineResults env config diff).filter
      (fun r => r.featureName = n)).foldl (fun m r => jsMerge m r.metadata) [] := by
  rw [alookup_foldFeatures] at hf
  cases hcse : (pipelineResults env config diff).filter (fun r => r.featureName = n) with
  | nil =>
    rw [hcse] at hf
    simp [mergeContrib] at hf
  | cons c rest =>
    rw [hcse] at hf
    simp only [mergeContrib, Option.some_inj] at hf
    have hcmem : c ∈ pipelineResults env config diff := by
      have h1 : c ∈ (pipelineResults env config diff).filter
          (fun r => r.featureName = n) := by
        rw [hcse]
        exact List.mem_cons_self _ _
      exact (List.mem_filter.1 h1).1
    have hnodup := pipelineResults_nodup env config diff c hcmem
    rw [← hf]
    refine ⟨⟨fun r hr => mergeList_conf_ge rest c r hr, mergeList_conf_mem rest c⟩,
      ?_, ?_, ?_⟩
    · rw [mergeList_files rest c hnodup.1]
      simp [List.flatMap_cons]
    · rw [mergeList_tests rest c hnodup.2]
      simp [List.flatMap_cons]
    · rw [mergeList_metadata]
      rw [List.foldl_cons, jsMerge_nil_left]

/-- Witness for C1: the Scenario C pipeline, where a folder strategy and a
file strategy both report `payments` (confidences `0.6` and `0.9`). -/
theorem teo_C1_witness :
    ((∀ r ∈ (pipelineResults envScenC cfgScenC diffScenC).filter
        (fun r => r.featureName = "payments"),
        r.confidence ≤ mergedScenC.confidence) ∧
      mergedScenC.confidence ∈ ((pipelineResults envScenC cfgScenC diffScenC).filter
        (fun r => r.featureName = "payments")).map (fun r => r.confidence)) ∧
    mergedScenC.impactedFiles = jsDedup (((pipelineResults envScenC cfgScenC diffScenC).filter
      (fun r => r.featureName = "payments")).flatMap (fun r => r.impactedFiles)) ∧
    mergedScenC.testFiles = jsDedup (((pipelineResults envScenC cfgScenC diffScenC).filter
      (fun r => r.featureName = "payments")).flatMap (fun r => r.testFiles)) ∧
    mergedScenC.metadata = ((pipelineResults envScenC cfgScenC diffScenC).filter
      (fun r => r.featureName = "payments")).foldl (fun m r => jsMerge m r.metadata) [] :=
  teo_C1 envScenC cfgScenC diffScenC "payments" mergedScenC rfl

/-- C2 (amended): for every non-deleted, non-binary changed file whose
extension maps to a language with a registered parser and whose head-revision
content parses to a tree, enrichment populates `classesChanged` with the
names of class-like nodes (a name being the first identifier child) and
`importsChanged` with the trimmed texts of import-like nodes; however
`functionsChanged` is always empty, because `getFunctionQuery` returns null
for every language and `extractFunctions` then bails out. -/
theorem teo_C2_amended (env : Env) (fs : FileSummary) (lang : String) (t : STree)
    (hb : fs.binary = false) (hd : classifyChange fs ≠ ChangeType.deleted)
    (hl : detectLanguage fs.file = some lang) (hp : parserRegistered lang = true)
    (ht : env.parseHead fs.file = some t) :
    (analyzeFileChange env fs).functionsChanged = [] ∧
    (analyzeFileChange env fs).classesChanged = specClassNames t lang ∧
    (analyzeFileChange env fs).importsChanged = specImportTexts t lang := by
  rw [analyzeFileChange_enriched env fs lang t hb hd hl hp ht]
  exact ⟨rfl, extractClasses_eq_spec t lang, extractImports_eq_spec t lang⟩

/-- Counterexample to C2 as stated: a JavaScript file whose tree holds one
named function declaration; the specification says `changedFunctions` should
be `["foo"]`, the code produces `[]`. -/
theorem teo_C2_counterexample :
    (analyzeFileChange envParseFun
      { file := "a.js", insertions := 1, deletions := 1, binary := false }).functionsChanged
        = [] ∧
    specFunctionNames sampleFunTree "javascript" = ["foo"] ∧
    ([] : List String) ≠ ["foo"] := by
  refine ⟨?_, by decide, by simp⟩
  rw [analyzeFileChange_enriched envParseFun _ "javascript" sampleFunTree rfl
    (by decide) (by decide) (by decide) rfl]
  rfl

/-- Witness for C2 (amended) at the same concrete file and tree. -/
theorem teo_C2_witness :
    (analyzeFileChange envParseFun
      { file := "a.js", insertions := 1, deletions := 1, binary := false }).functionsChanged
        = [] ∧
    (analyzeFileChange envParseFun
      { file := "a.js", insertions := 1, deletions := 1, binary := false }).classesChanged
        = specClassNames sampleFunTree "javascript" ∧
    (analyzeFileChange envParseFun
      { file := "a.js", insertions := 1, deletions := 1, binary := false }).importsChanged
        = specImportTexts sampleFunTree "javascript" :=
  teo_C2_amended envParseFun
    { file := "a.js", insertions := 1, deletions := 1, binary := false }
    "javascript" sampleFunTree rfl (by decide) (by decide) (by decide) rfl

/-- C3 (amended): for every pipeline run whose configured strategy weights
and feature-definition static confidences all lie in `[0, 1]` — the ranges the
configuration schema prescribes, which the code never enforces at run time —
every produced `ImpactedFeature` has confidence in `[0, 1]`. -/
theorem teo_C3_amended (env : Env) (config : MapperConfig) (diff : DiffResult)
    (hw : ∀ s ∈ config.strategies, ∀ w : ℚ, s.weight = some w → 0 ≤ w ∧ w ≤ 1)
    (hc : ∀ p ∈ config.features, ∀ q : ℚ, p.2.confidence = some q → 0 ≤ q ∧ q ≤ 1) :
    ∀ f ∈ (mapChangesToFeatures env config diff).1,
      0 ≤ f.confidence ∧ f.confidence ≤ 1 := by
  intro f hf
  rw [mapChangesToFeatures_eq, sortByConfidence] at hf
  have hf2 : f ∈ (foldFeatures (pipelineResults env config diff)).map Prod.snd :=
    (List.perm_insertionSort confGe _).mem_iff.1 hf
  rcases List.mem_map.1 hf2 with ⟨p, hp, hpf⟩
  rw [← hpf]
  refine foldl_mapStep_conf_bound (pipelineResults env config diff) [] ?_ (by simp) p hp
  intro g hg
  rw [pipelineResults] at hg
  rcases List.mem_flatMap.1 hg with ⟨q, hq, hg2⟩
  exact runStrategy_conf_bound env config diff q.1 q.2
    (hw q.2 (initializeStrategies_cfg_mem hq)) hc g hg2

/-- Counterexample to C3 as stated: with a configured strategy weight of `2`
(which neither the mapper nor the engine validates or clamps) the pipeline
produces an `ImpactedFeature` with confidence `2 ∉ [0, 1]`. -/
theorem teo_C3_counterexample :
    ((mapChangesToFeatures envMatchAll cfgWeightTwo diffOnePay).1.map
      (fun f => f.confidence)) = [jsNumOr (some 2) 1 * jsNumOr (some 1) 1] ∧
    jsNumOr (some 2) 1 * jsNumOr (some 1) 1 = (2 : ℚ) ∧ ¬ ((2 : ℚ) ≤ 1) := by
  refine ⟨rfl, by norm_num [jsNumOr], by norm_num⟩

/-- Witness for C3 (amended) at the Scenario C run. -/
theorem teo_C3_witness :
    0 ≤ mergedScenC.confidence ∧ mergedScenC.confidence ≤ 1 :=
  teo_C3_amended envScenC cfgScenC diffScenC
    (by
      intro s hs w hweq
      fin_cases hs <;> exact Option.noConfusion hweq)
    (by
      intro p hp q hq
      fin_cases hp
      exact Option.noConfusion hq)
    mergedScenC
    (by
      rw [show (mapChangesToFeatures envScenC cfgScenC diffScenC).1 = [mergedScenC] from rfl]
      exact List.mem_singleton.2 rfl)

/-- C4 (amended): for every changed file whose path matches (through the
`minimatch` collaborator) some pattern of a configured feature's source
patterns, the file-based strategy emits a result for that feature whose
confidence is `weight * (staticConfidence || 1.0)`: it equals
`weight * staticConfidence` whenever the static confidence is non-zero, but a
static confidence of `0` is falsy in JS and is replaced by the default `1.0`. -/
theorem teo_C4_amended (env : Env) (w : ℚ) (diff : DiffResult)
    (maps : List (String × FeatureMappingDef)) (change : CodeChange)
    (name : String) (mdef : FeatureMappingDef)
    (hch : change ∈ diff.changes) (hm : (name, mdef) ∈ maps)
    (hmatch : matchesPatterns env change.filePath mdef.source_patterns = true) :
    ∃ f ∈ fileBasedMap env w diff maps,
      f.featureName = name ∧
      f.confidence = w * jsNumOr mdef.confidence 1 ∧
      ∀ q : ℚ, mdef.confidence = some q → q ≠ 0 → f.confidence = w * q := by
  refine ⟨{ featureName := name, confidence := w * jsNumOr mdef.confidence 1,
            impactedFiles := [change.filePath],
            testFiles := resolveTestPatterns env mdef.test_patterns,
            changeSummary := "Changes in " ++ name ++ " feature",
            strategyUsed := "file_based", metadata := mdef.metadata },
    ?_, rfl, rfl, ?_⟩
  · rw [fileBasedMap]
    refine List.mem_flatMap.2 ⟨change, hch, ?_⟩
    refine List.mem_flatMap.2 ⟨(name, mdef), hm, ?_⟩
    rw [if_pos hmatch]
    simp
  · intro q hq hq0
    simp [jsNumOr, hq, hq0]

/-- Counterexample to C4 as stated: a feature definition with
`staticConfidence = 0`; the claim demands confidence `weight * 0 = 0`, but the
strategy emits `weight * 1 = 1` because `0` is replaced by the `|| 1.0`
default. -/
theorem teo_C4_counterexample :
    ((fileBasedMap envMatchAll 1 diffOnePay
        [("payments", { source_patterns := ["src/**"], confidence := some 0 })]).map
      (fun f => f.confidence)) = [1 * jsNumOr (some 0) 1] ∧
    (1 * jsNumOr (some 0) 1 : ℚ) = 1 ∧ ((1 : ℚ) ≠ 1 * 0) := by
  refine ⟨rfl, by norm_num [jsNumOr], by norm_num⟩

/-- Witness for C4 (amended) at a feature with static confidence `1/2`. -/
theorem teo_C4_witness :
    ∃ f ∈ fileBasedMap envMatchAll 1 diffOnePay
        [("auth", { source_patterns := ["src/**"], confidence := some 0.5 })],
      f.featureName = "auth" ∧
      f.confidence = 1 * jsNumOr (some 0.5) 1 ∧
      ∀ q : ℚ, (some (0.5 : ℚ) : Option ℚ) = some q → q ≠ 0 → f.confidence = 1 * q :=
  teo_C4_amended envMatchAll 1 diffOnePay
    [("auth", { source_patterns := ["src/**"], confidence := some 0.5 })]
    { filePath := "src/pay.js", changeType := ChangeType.modified }
    "auth" { source_patterns := ["src/**"], confidence := some 0.5 }
    (List.mem_singleton.2 rfl) (List.mem_singleton.2 rfl) (by decide)

/-- C5: for every ranked impacted-feature list and every available-test list,
each selected test path appears in exactly one `SelectionEntry` (the selected
paths are duplicate-free and every matched path is selected), and the entry is
attributed to the first feature in ranked order whose matching test set
contains that path — no earlier feature matches it, and the entry carries that
feature's name, confidence and strategy. -/
theorem teo_C5 (env : Env) (files : List String) (fs : List ImpactedFeature) :
    (((selectTests env files fs).selectedTests.map (fun e => e.path)).Nodup) ∧
    (∀ e ∈ (selectTests env files fs).selectedTests,
      ∃ pre g post, fs = pre ++ g :: post ∧
        e = mkEntry g e.path ∧
        e.path ∈ matchTestsToFeature env files g ∧
        ∀ g2 ∈ pre, e.path ∉ matchTestsToFeature env files g2) ∧
    (∀ p g, g ∈ fs → p ∈ matchTestsToFeature env files g →
      ∃ e ∈ (selectTests env files fs).selectedTests, e.path = p) := by
  have h := selectLoop_invariant env files fs [] ([], []) (by simp) (by simp) (by simp)
  simpa using h

/-- Witness for C5: Scenario D, two `shared` features both matching
`tests/shared.spec.js`; the path is selected. -/
theorem teo_C5_witness :
    ∃ e ∈ (selectTests envSelect ["tests/shared.spec.js"] featsScenD).selectedTests,
      e.path = "tests/shared.spec.js" :=
  (teo_C5 envSelect ["tests/shared.spec.js"] featsScenD).2.2 "tests/shared.spec.js"
    { featureName := "shared", confidence := 0.9, strategyUsed := "file_based" }
    (List.mem_cons_self _ _) (by decide)

/-- C6: the diff summary classification assigns `modified` to binary files,
`added` when insertions are positive and deletions zero, `deleted` when
insertions are zero and deletions positive, and `modified` otherwise. -/
theorem teo_C6 (file : String) (i d : ℕ) (b : Bool) :
    classifyChange { file := file, insertions := i, deletions := d, binary := b } =
      specChangeType b i d ∧
    (b = true →
      classifyChange { file := file, insertions := i, deletions := d, binary := b } =
        ChangeType.modified) ∧
    (b = false → i > 0 → d = 0 →
      classifyChange { file := file, insertions := i, deletions := d, binary := b } =
        ChangeType.added) ∧
    (b = false → i = 0 → d > 0 →
      classifyChange { file := file, insertions := i, deletions := d, binary := b } =
        ChangeType.deleted) ∧
    (b = false → ¬(i > 0 ∧ d = 0) → ¬(i = 0 ∧ d > 0) →
      classifyChange { file := file, insertions := i, deletions := d, binary := b } =
        ChangeType.modified) := by
  refine ⟨rfl, ?_, ?_, ?_, ?_⟩
  · intro hb
    simp [classifyChange, hb]
  · intro hb hi hd2
    simp [classifyChange, hb, hi, hd2]
  · intro hb hi hd2
    simp [classifyChange, hb, hi, hd2]
  · intro hb h1 h2
    simp [classifyChange, hb, h1, h2]

/-- Witness for C6: a non-binary file with three insertions and no deletions
is classified as added. -/
theorem teo_C6_witness :
    classifyChange { file := "a.js", insertions := 3, deletions := 0, binary := false } =
      ChangeType.added :=
  (teo_C6 "a.js" 3 0 false).2.2.1 rfl (by norm_num) rfl

/-- C7: when one strategy's detection throws while the others run, the
exception is caught: the final feature list equals the list obtained from the
remaining strategies alone, and a diagnostic naming the failing strategy and
its error is recorded; the mapping step itself is total, so no error
propagates. -/
theorem teo_C7 (pre post : List (String × Except String (List ImpactedFeature)))
    (name err : String) :
    (runMapping (pre ++ (name, Except.error err) :: post)).1 =
      (runMapping (pre ++ post)).1 ∧
    (name, err) ∈ (runMapping (pre ++ (name, Except.error err) :: post)).2 := by
  constructor
  · rw [runMapping_eq, runMapping_eq]
    simp [okResults]
  · rw [runMapping_eq]
    simp [errParts]

/-- C8: the feature list returned by the strategy loop is sorted by
confidence in descending order, and features of equal confidence appear in
the order in which their names were first inserted into the `allFeatures` map
during the fold (the order of the map's values). -/
theorem teo_C8 (outcomes : List (String × Except String (List ImpactedFeature))) :
    List.Sorted (fun a b => b.confidence ≤ a.confidence) (runMapping outcomes).1 ∧
    ∀ q : ℚ, (runMapping outcomes).1.filter (fun f => f.confidence = q) =
      ((foldOutcomes outcomes).1.map Prod.snd).filter (fun f => f.confidence = q) := by
  constructor
  · show List.Sorted confGe (sortByConfidence ((foldOutcomes outcomes).1.map Prod.snd))
    rw [sortByConfidence]
    exact List.sorted_insertionSort confGe _
  · intro q
    show (sortByConfidence ((foldOutcomes outcomes).1.map Prod.snd)).filter _ = _
    rw [sortByConfidence]
    exact filter_insertionSort q _

/-- C9: an empty change set yields zero impacted features and the engine's
stub selection with zero selection entries; the mapping and selection steps
are total functions, so no error is raised. -/
theorem teo_C9 (env : Env) (config : MapperConfig) (tests : List String) :
    analyzeCore env config { changes := [] } tests = ([], emptySelection) := by
  rw [analyzeCore]
  simp [mapChangesToFeatures_nil]

/-- C10: test selection invoked with an empty available-test list reports
`totalAvailable = 0`, `totalSelected = 0`, and a `reductionPercentage` that is
`NaN` — not a number in `[0, 100]` — because `selected/available` divides by
zero unguarded. -/
theorem teo_C10 (env : Env) (features : List ImpactedFeature) :
    (selectTests env [] features).summary.totalAvailable = 0 ∧
    (selectTests env [] features).summary.totalSelected = 0 ∧
    (selectTests env [] features).summary.reductionPercentage = JSNum.nan ∧
    ∀ q : ℚ, (selectTests env [] features).summary.reductionPercentage ≠ JSNum.num q := by
  rw [selectTests_nil_files]
  refine ⟨rfl, rfl, rfl, ?_⟩
  intro q h
  simp at h

/-- Witness for C10 at a concrete run with two features and no available
tests. -/
theorem teo_C10_witness :
    (selectTests envSelect [] featsScenD).summary.totalAvailable = 0 ∧
    (selectTests envSelect [] featsScenD).summary.totalSelected = 0 ∧
    (selectTests envSelect [] featsScenD).summary.reductionPercentage = JSNum.nan :=
  ⟨(teo_C10 envSelect featsScenD).1, (teo_C10 envSelect featsScenD).2.1,
    (teo_C10 envSelect featsScenD).2.2.1⟩

end TEO
